import Mathlib

/-!
Shallow embedding of the candidate-refinement engine of `ear-to-code`
(`src/f.py`, `src/o.py`, `src/delta.py`) and proofs about it.

Modelling conventions:
* Python dicts are ordered association lists `List (String × Val)` (Python
  dicts preserve insertion order; the engine only reads and rewrites values
  of existing keys, so key uniqueness is never consulted).
* Python floats are modelled as rationals `ℚ`; `round(x, 3)` is modelled as
  rounding `1000 * x` to the nearest integer.  No claim settled here depends
  on the float/rational difference.
* Exceptions (`ZeroDivisionError` raised by `1 / hypotheses` on an empty
  sequence, `IndexError` raised by `random.choice` on an empty tuple or by
  indexing an empty list) are modelled with `Except PyErr`.
* The external oracle (`ollama` subprocess behind `o()`) is a parameter
  `oracle : String → String`; the RNG behind `random.random` /
  `random.choice` is a parameter supplying one decision per field.
* Side effects that the control flow never reads (JSONL log appends,
  timestamps, prints) are omitted.
-/

namespace Ear

set_option maxRecDepth 10000

/- Batteries marks the rational operations `@[irreducible]`, which blocks
`decide` on concrete runs of the scorer; restore the default reducibility
locally so witnesses can be checked by evaluation. -/
attribute [local semireducible] Rat.add Rat.mul Rat.inv Rat.sub

/-- Decidable equality for `Except`, so concrete runs of the fallible
functions can be checked by `decide`. -/
instance {ε α : Type} [DecidableEq ε] [DecidableEq α] :
    DecidableEq (Except ε α)
  | .ok a, .ok b =>
      match decEq a b with
      | .isTrue h => .isTrue (congrArg Except.ok h)
      | .isFalse h => .isFalse (fun hh => h (Except.ok.inj hh))
  | .error a, .error b =>
      match decEq a b with
      | .isTrue h => .isTrue (congrArg Except.error h)
      | .isFalse h => .isFalse (fun hh => h (Except.error.inj hh))
  | .ok _, .error _ => .isFalse (fun h => Except.noConfusion h)
  | .error _, .ok _ => .isFalse (fun h => Except.noConfusion h)

/-- Python runtime errors that the modelled code can raise. -/
inductive PyErr : Type
  | zeroDivisionError
  | indexError
  | typeError
  deriving DecidableEq, Repr

/-- Python values occurring in candidates: strings, ints, booleans,
lists and tuples (`razor` distinguishes `str` from `(list, tuple)`;
`mutate` distinguishes `tuple` and `bool`). -/
inductive Val : Type
  | vstr  : String → Val
  | vint  : Int → Val
  | vbool : Bool → Val
  | vlist : List Val → Val
  | vtup  : List Val → Val

mutual

/-- Decidable equality on `Val` (the derive handler does not support the
nested `List Val` occurrences, so it is spelled out). -/
def Val.decEq : (a b : Val) → Decidable (a = b)
  | .vstr a, .vstr b =>
      match String.decEq a b with
      | .isTrue h => .isTrue (congrArg Val.vstr h)
      | .isFalse h => .isFalse (fun hh => h (Val.vstr.inj hh))
  | .vint a, .vint b =>
      match Int.decEq a b with
      | .isTrue h => .isTrue (congrArg Val.vint h)
      | .isFalse h => .isFalse (fun hh => h (Val.vint.inj hh))
  | .vbool a, .vbool b =>
      match Bool.decEq a b with
      | .isTrue h => .isTrue (congrArg Val.vbool h)
      | .isFalse h => .isFalse (fun hh => h (Val.vbool.inj hh))
  | .vlist a, .vlist b =>
      match Val.decEqList a b with
      | .isTrue h => .isTrue (congrArg Val.vlist h)
      | .isFalse h => .isFalse (fun hh => h (Val.vlist.inj hh))
  | .vtup a, .vtup b =>
      match Val.decEqList a b with
      | .isTrue h => .isTrue (congrArg Val.vtup h)
      | .isFalse h => .isFalse (fun hh => h (Val.vtup.inj hh))
  | .vstr _, .vint _ => .isFalse (fun h => Val.noConfusion h)
  | .vstr _, .vbool _ => .isFalse (fun h => Val.noConfusion h)
  | .vstr _, .vlist _ => .isFalse (fun h => Val.noConfusion h)
  | .vstr _, .vtup _ => .isFalse (fun h => Val.noConfusion h)
  | .vint _, .vstr _ => .isFalse (fun h => Val.noConfusion h)
  | .vint _, .vbool _ => .isFalse (fun h => Val.noConfusion h)
  | .vint _, .vlist _ => .isFalse (fun h => Val.noConfusion h)
  | .vint _, .vtup _ => .isFalse (fun h => Val.noConfusion h)
  | .vbool _, .vstr _ => .isFalse (fun h => Val.noConfusion h)
  | .vbool _, .vint _ => .isFalse (fun h => Val.noConfusion h)
  | .vbool _, .vlist _ => .isFalse (fun h => Val.noConfusion h)
  | .vbool _, .vtup _ => .isFalse (fun h => Val.noConfusion h)
  | .vlist _, .vstr _ => .isFalse (fun h => Val.noConfusion h)
  | .vlist _, .vint _ => .isFalse (fun h => Val.noConfusion h)
  | .vlist _, .vbool _ => .isFalse (fun h => Val.noConfusion h)
  | .vlist _, .vtup _ => .isFalse (fun h => Val.noConfusion h)
  | .vtup _, .vstr _ => .isFalse (fun h => Val.noConfusion h)
  | .vtup _, .vint _ => .isFalse (fun h => Val.noConfusion h)
  | .vtup _, .vbool _ => .isFalse (fun h => Val.noConfusion h)
  | .vtup _, .vlist _ => .isFalse (fun h => Val.noConfusion h)

/-- Decidable equality on `List Val`, mutually with `Val.decEq`. -/
def Val.decEqList : (xs ys : List Val) → Decidable (xs = ys)
  | [], [] => .isTrue rfl
  | [], _ :: _ => .isFalse (fun h => List.noConfusion h)
  | _ :: _, [] => .isFalse (fun h => List.noConfusion h)
  | x :: xs, y :: ys =>
      match Val.decEq x y, Val.decEqList xs ys with
      | .isTrue h1, .isTrue h2 => .isTrue (by rw [h1, h2])
      | .isFalse h1, _ => .isFalse (fun hh => h1 (List.cons.inj hh).1)
      | .isTrue _, .isFalse h2 => .isFalse (fun hh => h2 (List.cons.inj hh).2)

end

instance : DecidableEq Val := Val.decEq

/-- A candidate: a Python dict as an insertion-ordered association list. -/
abbrev Cand := List (String × Val)

/-- Substring test on lists, used to model the Python `in` operator on
strings (`"[timeout" in verdict`). -/
def listContains (needle : List Char) : List Char → Bool
  | [] => needle.isEmpty
  | c :: cs => needle.isPrefixOf (c :: cs) || listContains needle cs

/-- `strContains hay needle` models Python `needle in hay`. -/
def strContains (hay needle : String) : Bool :=
  listContains needle.toList hay.toList

/-- The failure test both `razor` (f.py line 43) and `razor_all`
(delta.py line 36) apply to an oracle verdict. -/
def isFailureVerdict (verdict : String) : Bool :=
  strContains verdict "[timeout" || strContains verdict "[erreur"

/-- Model of Python `round(x, 3)` on the rational model of floats. -/
def round3 (q : ℚ) : ℚ := (round (q * 1000) : ℚ) / 1000

/-- Number of hypotheses one kept value contributes to
`hypotheses_total` (f.py lines 59-62): `len(v)` for a list/tuple, else 1. -/
def hypCount : Val → Nat
  | .vlist xs => xs.length
  | .vtup xs => xs.length
  | _ => 1

/-- Result dict of `razor` (f.py lines 55-63). -/
structure RazorResult : Type where
  kept : Cand
  cut : List Val
  score : ℚ
  hypotheses_total : Nat
  deriving DecidableEq

/-- One loop iteration of `razor` (f.py lines 38-53): given the oracle and
one `key, value` pair, produce the kept value and the score increment, or
the raised error.  A `str` longer than 10 chars is submitted as the claim
`"<key>: <value>"`; on a failure-marked verdict the original value is kept
for 0.5 points, otherwise the superposition pair `(value, verdict)` is kept
for 1 point.  Any other value is kept unchanged for `1 / hypotheses` points
where `hypotheses = len(value)` for a list/tuple and 1 otherwise — `1 / 0`
raises `ZeroDivisionError` when the sequence is empty. -/
def razorField (oracle : String → String) (key : String) (value : Val) :
    Except PyErr (Val × ℚ) :=
  match value with
  | .vstr s =>
      if s.length > 10 then
        let verdict := oracle (key ++ ": " ++ s)
        if isFailureVerdict verdict then .ok (.vstr s, 1 / 2)
        else .ok (.vtup [.vstr s, .vstr verdict], 1)
      else .ok (.vstr s, 1)
  | .vlist xs =>
      if xs.length = 0 then .error .zeroDivisionError
      else .ok (.vlist xs, 1 / (xs.length : ℚ))
  | .vtup xs =>
      if xs.length = 0 then .error .zeroDivisionError
      else .ok (.vtup xs, 1 / (xs.length : ℚ))
  | v => .ok (v, 1)

/-- `razorField` applied to one association-list entry, keeping its key. -/
def razorEntry (oracle : String → String) (kv : String × Val) :
    Except PyErr (String × Val × ℚ) :=
  match razorField oracle kv.1 kv.2 with
  | .ok (v, q) => .ok (kv.1, v, q)
  | .error e => .error e

/-- `razor` (f.py lines 29-63): runs `razorField` over every field in
order, accumulating `kept` and `score`; `cut` stays empty; the final score
is rounded to 3 decimals and `hypotheses_total` sums `hypCount` over the
kept values. -/
def razor (oracle : String → String) (idea : Cand) :
    Except PyErr RazorResult :=
  match idea.mapM (razorEntry oracle) with
  | .error e => .error e
  | .ok entries =>
      .ok { kept := entries.map (fun p => (p.1, p.2.1)),
            cut := [],
            score := round3 (entries.foldl (fun acc p => acc + p.2.2) 0),
            hypotheses_total :=
              (entries.map (fun p => hypCount p.2.1)).foldl (· + ·) 0 }

mutual

/-- Python `repr` of a value, approximated: enough to model the f-string
`f"alt_{value}"` in `mutate`; no settled claim depends on the exact text. -/
def pyRepr : Val → String
  | .vstr s => "*" ++ s ++ "*"
  | .vint i => toString i
  | .vbool b => if b then "True" else "False"
  | .vlist xs => "[" ++ pyReprList xs ++ "]"
  | .vtup xs => "(" ++ pyReprList xs ++ ")"

/-- Comma-separated `repr`s of the elements, mutually with `pyRepr`. -/
def pyReprList : List Val → String
  | [] => ""
  | [x] => pyRepr x
  | x :: xs => pyRepr x ++ ", " ++ pyReprList xs

end

/-- Python `str` of a value: the string itself for a `str`, `repr`-like
text otherwise. -/
def pyStr : Val → String
  | .vstr s => s
  | v => pyRepr v

/-- The three mutation kinds `mutate` chooses from (f.py lines 77-81). -/
inductive MType : Type
  | superposition
  | simplify
  | invert
  deriving DecidableEq, Repr

/-- One field's worth of RNG decisions for `mutate`: the `random.random()`
draw compared against `rate`, the `random.choice` among the three mutation
kinds, and the index `random.choice(value)` would pick from a tuple.
Indexing decisions by field position abstracts Python's sequentially
consumed global RNG stream; every concrete stream is one such function. -/
structure Rand : Type where
  draw : Nat → ℚ
  mtype : Nat → MType
  pick : Nat → Nat

/-- The body of `mutate`'s per-field loop (f.py lines 74-95) for field
number `n`: with probability `rate` apply the drawn mutation kind when it
matches the value's shape, else leave the value unchanged.
`random.choice` over an empty tuple raises `IndexError`. -/
def mutateField (rand : Rand) (rate : ℚ) (n : Nat) (key : String)
    (value : Val) : Except PyErr (Val × List String) :=
  if rand.draw n < rate then
    match rand.mtype n with
    | .superposition =>
        match value with
        | .vtup vs => .ok (.vtup vs, [])
        | v => .ok (.vtup [v, .vstr ("alt_" ++ pyStr v)],
                    [key ++ ": +superposition"])
    | .simplify =>
        match value with
        | .vtup vs =>
            match vs.get? (rand.pick n % vs.length) with
            | some v => .ok (v, [key ++ ": collapse"])
            | none => .error .indexError
        | v => .ok (v, [])
    | .invert =>
        match value with
        | .vbool b => .ok (.vbool !b, [key ++ ": invert"])
        | v => .ok (v, [])
  else .ok (value, [])

/-- `mutate`'s loop over the fields of the copied dict, threading the field
counter and collecting the `mutations` trace in order. -/
def mutateGo (rand : Rand) (rate : ℚ) : Nat → Cand →
    Except PyErr (Cand × List String)
  | _, [] => .ok ([], [])
  | n, (k, v) :: rest =>
      match mutateField rand rate n k v with
      | .error e => .error e
      | .ok (v', ms) =>
          match mutateGo rand rate (n + 1) rest with
          | .error e => .error e
          | .ok (rest', ms') => .ok ((k, v') :: rest', ms ++ ms')

/-- Result dict of `mutate` (f.py line 97). -/
structure MutateResult : Type where
  idea : Cand
  mutations : List String
  deriving DecidableEq

/-- `mutate` (f.py lines 66-97).  `mutated = dict(idea)` copies the dict,
so the caller's mapping is never written to — in this embedding candidates
are immutable values, which is faithful precisely because of that copy; the
loop rewrites values of existing keys only. -/
def mutate (rand : Rand) (idea : Cand) (rate : ℚ) :
    Except PyErr MutateResult :=
  match mutateGo rand rate 0 idea with
  | .error e => .error e
  | .ok (m, ms) => .ok { idea := m, mutations := ms }

/-- First value stored under a key, as Python `idea.get(key)`
(`none` models `None` for a missing key). -/
def dictGet (idea : Cand) (key : String) : Option Val :=
  (idea.find? (fun kv => kv.1 = key)).map (fun kv => kv.2)

/-- Python truthiness of a value, as used by `idea.get(k)` in a boolean
context in `check_axioms`. -/
def truthy : Val → Bool
  | .vstr s => s ≠ ""
  | .vint i => i ≠ 0
  | .vbool b => b
  | .vlist xs => ¬xs.isEmpty
  | .vtup xs => ¬xs.isEmpty

/-- `bool(idea.get(key))`: false for a missing key (`None`), else the
value's truthiness. -/
def getTruthy (idea : Cand) (key : String) : Bool :=
  match dictGet idea key with
  | some v => truthy v
  | none => false

/-- `check_axioms` (f.py lines 120-143): evaluates the four flag predicates
in order and returns `(valid, violations)` with `valid` iff no violation
was recorded. -/
def check_axioms (idea : Cand) : Bool × List Nat :=
  let violations :=
    (if getTruthy idea "requires_api" && !getTruthy idea "ollama"
     then [1] else []) ++
    (if getTruthy idea "force_choice" then [2] else []) ++
    (if getTruthy idea "static" || getTruthy idea "immutable"
     then [5] else []) ++
    (if getTruthy idea "single_source" then [6] else [])
  (violations.length = 0, violations)

/-- The order Python's stable sort is asked for by
`scored.sort(key=lambda x: -x[0])`: descending in the score component. -/
def scoreGE (a b : ℚ × Cand) : Prop := b.1 ≤ a.1

instance : DecidableRel scoreGE :=
  fun a b => inferInstanceAs (Decidable (b.1 ≤ a.1))

/-- Python `list.sort(key=lambda x: -x[0])`: a stable sort descending by
score.  Stable sorting by a total preorder has a unique result, so the
stable `insertionSort` is a faithful model of Timsort here. -/
def pySortDesc (scored : List (ℚ × Cand)) : List (ℚ × Cand) :=
  scored.insertionSort scoreGE

/-- One entry of `select`'s scoring loop (f.py lines 107-109): the pair
`(razor(idea)["score"], idea)`. -/
def scoreOne (oracle : String → String) (idea : Cand) :
    Except PyErr (ℚ × Cand) :=
  match razor oracle idea with
  | .ok r => .ok (r.score, idea)
  | .error e => .error e

/-- `select` (f.py lines 100-117): re-score every candidate with `razor`,
sort descending by score (stably), and keep the first
`len(scored) // 2 + 1` entries. -/
def select (oracle : String → String) (population : List Cand) :
    Except PyErr (List Cand) :=
  match population.mapM (scoreOne oracle) with
  | .error e => .error e
  | .ok scored =>
      .ok (((pySortDesc scored).take (scored.length / 2 + 1)).map
        (fun x => x.2))

/-- One per-generation history entry (f.py lines 198-204). -/
structure GenRecord : Type where
  gen : Nat
  pop_size : Nat
  best_score : ℚ
  best_hypotheses : Nat
  deriving DecidableEq

/-- The result dict of `f` (f.py lines 211-218); the timestamp and the log
write are side effects the control flow never reads and are omitted. -/
structure FResult : Type where
  input : Cand
  output : Cand
  generations : Nat
  history : List GenRecord
  final_score : ℚ
  deriving DecidableEq

/-- `mutate(idea, rate)["idea"]`, as consumed by `f`. -/
def mutateIdea (rand : Rand) (idea : Cand) (rate : ℚ) :
    Except PyErr Cand :=
  match mutate rand idea rate with
  | .ok m => .ok m.idea
  | .error e => .error e

/-- Initial population of `f` (f.py lines 157-162): the seed followed by 5
variations of the seed mutated at rate 0.3.  `rands i` supplies the RNG
decisions of the `i`-th `mutate` call of the run. -/
def initPop (rands : Nat → Rand) (input_data : Cand) :
    Except PyErr (List Cand) :=
  match (List.range 5).mapM
      (fun i => mutateIdea (rands i) input_data (3 / 10)) with
  | .error e => .error e
  | .ok vars => .ok (input_data :: vars)

/-- `razor(idea)["kept"]`, as consumed by the generation loop. -/
def razorKept (oracle : String → String) (idea : Cand) :
    Except PyErr Cand :=
  match razor oracle idea with
  | .ok r => .ok r.kept
  | .error e => .error e

/-- Step 1 of a generation (f.py lines 168-171): razor every member. -/
def razorPop (oracle : String → String) (population : List Cand) :
    Except PyErr (List Cand) :=
  population.mapM (razorKept oracle)

/-- Step 2 of a generation (f.py lines 174-182): keep the members passing
`check_axioms`; if none does, fall back to the first razored member. -/
def validPop (razored_pop : List Cand) : List Cand :=
  let valid := razored_pop.filter (fun idea => (check_axioms idea).1)
  if valid.isEmpty then razored_pop.take 1 else valid

/-- Step 4 of a generation (f.py lines 188-193): every survivor is carried
over followed by one mutated offspring (rate 0.1), threading the counter
of `mutate` calls through `rands`. -/
def offspring (rands : Nat → Rand) :
    Nat → List Cand → Except PyErr (List Cand × Nat)
  | ctr, [] => .ok ([], ctr)
  | ctr, s :: rest =>
      match mutateIdea (rands ctr) s (1 / 10) with
      | .error e => .error e
      | .ok child =>
          match offspring rands (ctr + 1) rest with
          | .error e => .error e
          | .ok (tail, ctr') => .ok (s :: child :: tail, ctr')

/-- One generation of `f` (f.py lines 166-204), from population to new
population: razor, validate with fallback, select, double with offspring,
then log a summary of `razor(population[0])` — indexing an empty list
would raise `IndexError`. -/
def genStep (oracle : String → String) (rands : Nat → Rand) (gen : Nat)
    (st : List Cand × Nat × List GenRecord) :
    Except PyErr (List Cand × Nat × List GenRecord) :=
  match razorPop oracle st.1 with
  | .error e => .error e
  | .ok razored_pop =>
    match select oracle (validPop razored_pop) with
    | .error e => .error e
    | .ok survivors =>
      match offspring rands st.2.1 survivors with
      | .error e => .error e
      | .ok (new_population, ctr') =>
        match new_population with
        | [] => .error .indexError
        | first :: _ =>
          match razor oracle first with
          | .error e => .error e
          | .ok best =>
            .ok (new_population, ctr',
                 st.2.2 ++ [{ gen := gen,
                              pop_size := new_population.length,
                              best_score := best.score,
                              best_hypotheses := best.hypotheses_total }])

/-- `for gen in range(generations)` over `genStep`: `gen` is the loop
index, the second argument the number of generations still to run. -/
def fLoop (oracle : String → String) (rands : Nat → Rand) :
    Nat → Nat → (List Cand × Nat × List GenRecord) →
    Except PyErr (List Cand × Nat × List GenRecord)
  | _, 0, st => .ok st
  | gen, n + 1, st =>
      match genStep oracle rands gen st with
      | .error e => .error e
      | .ok st' => fLoop oracle rands (gen + 1) n st'

/-- `f` (f.py lines 146-227): build the initial population, run the
generation loop, then score the final population, sort descending and
return the best member with the history.  `final_scores[0]` on an empty
population would raise `IndexError`. -/
def f (oracle : String → String) (rands : Nat → Rand) (input_data : Cand)
    (generations : Nat) : Except PyErr FResult :=
  match initPop rands input_data with
  | .error e => .error e
  | .ok pop0 =>
    match fLoop oracle rands 0 generations (pop0, 5, []) with
    | .error e => .error e
    | .ok (population, _, history) =>
      match population.mapM (scoreOne oracle) with
      | .error e => .error e
      | .ok final_scores =>
        match pySortDesc final_scores with
        | [] => .error .indexError
        | (sc, best) :: _ =>
            .ok { input := input_data, output := best,
                  generations := generations, history := history,
                  final_score := sc }

/-! ### The oracle adapter `o.py` -/

/-- The single-quote character, written via its code point. -/
def sq : String := String.singleton (Char.ofNat 39)

/-- Naive Python `repr` of a string (quotes it; escape sequences inside
the text are not modelled — no settled claim depends on them). -/
def pyReprStr (s : String) : String := sq ++ s ++ sq

/-- The prompt `occam` builds around the claim (o.py lines 28-48).  The
French wording is abbreviated and transliterated without apostrophes; the
settled claims depend only on which marker substrings the adapter can
produce, and the prompt contains neither marker. -/
def occamPrompt (claim : String) : String :=
  "RASOIR D OCKHAM - Analyse cette affirmation/experience:\n\n\"" ++
  claim ++
  "\"\n\nInstructions: liste des explications possibles, compte les " ++
  "hypotheses, applique le rasoir.\n\nFormat ta reponse en JSON:\n" ++
  "\x7b\n  \"hypotheses\": [...],\n  \"simplest\": \"...\",\n  " ++
  "\"verdict\": \"...\"\n\x7d\n\nSois honnete."

/-- `str(subprocess.TimeoutExpired(cmd, 60))` for the `ollama` invocation
of o.py lines 51-56: CPython renders it as
`Command <str(cmd)> timed out after 60 seconds` with the command list
shown in quotes. -/
def timeoutMsg (claim : String) : String :=
  "Command " ++ sq ++ "[" ++ pyReprStr "ollama" ++ ", " ++
  pyReprStr "run" ++ ", " ++ pyReprStr "llama3.1:8b" ++ ", " ++
  pyReprStr (occamPrompt claim) ++ "]" ++ sq ++
  " timed out after 60 seconds"

/-- How the backend call of `occam` ends: the subprocess times out (the
`try` catches `TimeoutExpired`), raises some other exception with text
`msg`, or completes with the given stdout. -/
inductive BackendOutcome : Type
  | timedout
  | raised (msg : String)
  | completed (stdout : String)

/-- The `analysis` dict `occam` ends up with (o.py lines 59-72): a parsed
JSON object, the two raw fallbacks, or the exception dict
`\x7b"error": str(e)\x7d`. -/
inductive OccamAnalysis : Type
  | fromJson (d : List (String × String))
  | noJson (raw : String)
  | parseFailed (raw : String)
  | errorDict (msg : String)

/-- `response.find(chr(123))` / `response.rfind(chr(125))` slicing of
o.py lines 62-64: the substring from the first opening brace to the last
closing brace, or `none` when the slice is empty or a brace is missing. -/
def extractBraced (response : String) : Option String :=
  let cs := response.toList
  match cs.findIdx? (fun c => c = Char.ofNat 123) with
  | none => none
  | some start =>
      match cs.reverse.findIdx? (fun c => c = Char.ofNat 125) with
      | none => none
      | some rj =>
          let stop := cs.length - rj
          if start < stop then
            some (String.mk ((cs.drop start).take (stop - start)))
          else none

/-- `occam` (o.py lines 17-87), parameterized by the backend outcome and
by the (opaque, total) JSON parser: on timeout or any other exception the
analysis is the error dict; otherwise the JSON slice of the stripped
stdout is parsed best-effort with the two documented fallbacks.  The log
append (swallowed on failure) is omitted.  By construction this function
is total: no exception escapes the adapter. -/
def occam (jsonParse : String → Option (List (String × String)))
    (claim : String) : BackendOutcome → OccamAnalysis
  | .timedout => .errorDict (timeoutMsg claim)
  | .raised msg => .errorDict msg
  | .completed stdout =>
      let response := stdout.trim
      match extractBraced response with
      | none => .noJson response
      | some jsonTxt =>
          match jsonParse jsonTxt with
          | some d => .fromJson d
          | none => .parseFailed response

/-- First value under a key of a parsed JSON object. -/
def jsonGet (d : List (String × String)) (key : String) : Option String :=
  (d.find? (fun kv => kv.1 = key)).map (fun kv => kv.2)

/-- Python `str` of a string-valued dict, as `str(result)` renders the
analysis dict in `o`. -/
def pyStrOfStrDict (d : List (String × String)) : String :=
  "\x7b" ++
  String.intercalate ", "
    (d.map (fun kv => pyReprStr kv.1 ++ ": " ++ pyReprStr kv.2)) ++
  "\x7d"

/-- `o` (o.py lines 89-99): return `verdict`, else `simplest`, else
`raw[:500]`, else `str(result)`.  The two raw fallback dicts of `occam`
carry a `raw` key, so they return the raw text truncated to 500; the
exception dict carries only `error`, so it falls through to
`str(result)`. -/
def o (jsonParse : String → Option (List (String × String)))
    (claim : String) (outcome : BackendOutcome) : String :=
  match occam jsonParse claim outcome with
  | .fromJson d =>
      match jsonGet d "verdict" with
      | some v => v
      | none =>
          match jsonGet d "simplest" with
          | some v => v
          | none =>
              match jsonGet d "raw" with
              | some v => v.take 500
              | none => pyStrOfStrDict d
  | .noJson raw => raw.take 500
  | .parseFailed raw => raw.take 500
  | .errorDict msg => pyStrOfStrDict [("error", msg)]

/-! ### The fixpoint reducer `delta.py` -/

/-- The per-item body of `razor_all`'s pass (delta.py lines 34-41): ask
the oracle; on a non-failure verdict keep the first line truncated to 50
characters (or the item itself when the verdict is the empty string,
which is falsy); on a failure-marked verdict keep the item. -/
def razorItem (oracle : String → String) (item : String) : String :=
  let verdict := oracle item
  if !isFailureVerdict verdict then
    if verdict ≠ "" then ((verdict.splitOn "\n").headD "").take 50
    else item
  else item

/-- One full pass of `razor_all` over the sequence. -/
def razorOnePass (oracle : String → String) (items : List String) :
    List String :=
  items.map (razorItem oracle)

/-- The recursion of `razor_all`, driven by the fuel `4 - depth` (the
recursion stops as soon as `depth > 3`, so the fuel form computes by
structural recursion; `razor_all_eq` below recovers the recurrence exactly
as delta.py writes it). -/
def razorAllAux (oracle : String → String) :
    Nat → List String → List String
  | 0, items => items
  | fuel + 1, items =>
      let result := razorOnePass oracle items
      if result ≠ items then razorAllAux oracle fuel result else result

/-- `razor_all` (delta.py lines 28-46): depth-capped fixpoint iteration —
return unchanged past depth 3, otherwise run one pass and recurse at
`depth + 1` only if the pass changed the sequence. -/
def razor_all (oracle : String → String) (items : List String)
    (depth : Nat) : List String :=
  razorAllAux oracle (4 - depth) items

/-- Fuel form of the pass counter for `razor_all`. -/
def razorAllCountAux (oracle : String → String) :
    Nat → List String → Nat
  | 0, _ => 0
  | fuel + 1, items =>
      let result := razorOnePass oracle items
      if result ≠ items then 1 + razorAllCountAux oracle fuel result else 1

/-- The number of full passes the call `razor_all oracle items depth`
performs: 0 past the depth cap, otherwise 1 for the pass just done plus
the passes of the recursive call when the sequence changed. -/
def razorAllPassCount (oracle : String → String) (items : List String)
    (depth : Nat) : Nat :=
  razorAllCountAux oracle (4 - depth) items

mutual

/-- Well-formedness of a value: every list or tuple nested anywhere inside
is non-empty.  `razor` raises on an empty top-level sequence and
`random.choice` raises on an empty tuple; values satisfying `goodVal`
never trip either, and the engine's operations preserve it. -/
def goodVal : Val → Bool
  | .vstr _ => true
  | .vint _ => true
  | .vbool _ => true
  | .vlist xs => !xs.isEmpty && goodList xs
  | .vtup xs => !xs.isEmpty && goodList xs

/-- `goodVal` for every element, mutually with `goodVal`. -/
def goodList : List Val → Bool
  | [] => true
  | x :: xs => goodVal x && goodList xs

end

/-- A candidate all of whose field values are well-formed. -/
def goodCand (c : Cand) : Bool := c.all (fun kv => goodVal kv.2)

/-- An RNG stream whose draws never fire a mutation
(`random.random()` modelled as returning 1, never `< rate`). -/
def trivRand : Rand := ⟨fun _ => 1, fun _ => .superposition, fun _ => 0⟩

/-- A run-level supply of `trivRand` for every `mutate` call. -/
def trivRands : Nat → Rand := fun _ => trivRand

/-!
## Theorems

First a small toolkit about `Except` and `List.mapM`, then the
development settling the claims.
-/

/-- Bind on `Except` succeeds exactly when both stages succeed. -/
theorem except_bind_ok {ε α β : Type} {x : Except ε α} {g : α → Except ε β}
    {b : β} : (x >>= g) = .ok b ↔ ∃ a, x = .ok a ∧ g a = .ok b := by
  cases x <;> simp [Bind.bind, Except.bind]

/-- `mapM` over `Except` succeeds exactly when every element succeeds,
element-wise in order. -/
theorem mapM_ok_iff {ε α β : Type} {g : α → Except ε β} {l : List α}
    {out : List β} :
    l.mapM g = .ok out ↔ List.Forall₂ (fun a b => g a = .ok b) l out := by
  induction l generalizing out with
  | nil =>
      simp only [List.mapM_nil, List.forall₂_nil_left_iff]
      constructor
      · intro h
        cases h
        rfl
      · intro h
        cases h
        rfl
  | cons a l ih =>
      rw [List.mapM_cons]
      constructor
      · intro h
        rcases except_bind_ok.mp h with ⟨b, hb, h2⟩
        rcases except_bind_ok.mp h2 with ⟨bs, hbs, h3⟩
        have hout : b :: bs = out := by
          cases h3
          rfl
        subst hout
        exact List.Forall₂.cons hb (ih.mp hbs)
      · intro h
        cases h with
        | cons hb hbs =>
            exact except_bind_ok.mpr ⟨_, hb,
              except_bind_ok.mpr ⟨_, ih.mpr hbs, rfl⟩⟩

/-- A `Forall₂` relating inputs to outputs transports `map`s. -/
theorem forall₂_map_eq {α β γ : Type} {R : α → β → Prop} {g : β → γ}
    {h : α → γ} (H : ∀ a b, R a b → g b = h a) :
    ∀ {l : List α} {out : List β}, List.Forall₂ R l out →
      out.map g = l.map h
  | [], [], List.Forall₂.nil => rfl
  | a :: l, b :: out, List.Forall₂.cons hab tl => by
      simp only [List.map_cons, H a b hab, forall₂_map_eq H tl]

/-- `razor_all` satisfies the source's recurrence verbatim
(delta.py lines 30-46). -/
theorem razor_all_eq (oracle : String → String) (items : List String)
    (depth : Nat) :
    razor_all oracle items depth =
      if depth > 3 then items
      else
        let result := razorOnePass oracle items
        if result ≠ items then razor_all oracle result (depth + 1)
        else result := by
  by_cases h : depth > 3
  · have h4 : 4 - depth = 0 := by omega
    simp [razor_all, h4, razorAllAux, h]
  · have h4 : 4 - depth = (4 - (depth + 1)) + 1 := by omega
    simp only [razor_all, h4, razorAllAux, if_neg h]

/-- Success shape of `razorEntry`: the key passes through unchanged. -/
theorem razorEntry_ok_iff {oracle : String → String} {kv : String × Val}
    {p : String × Val × ℚ} :
    razorEntry oracle kv = .ok p ↔
      ∃ v q, razorField oracle kv.1 kv.2 = .ok (v, q) ∧ p = (kv.1, v, q) := by
  cases h : razorField oracle kv.1 kv.2 with
  | ok vq =>
      cases vq with
      | mk v q =>
          simp [razorEntry, h]
          constructor
          · intro hp
            exact ⟨v, q, ⟨rfl, rfl⟩, hp.symm⟩
          · rintro ⟨v1, q1, ⟨rfl, rfl⟩, hp⟩
            exact hp.symm
  | error e => simp [razorEntry, h]

/-- Success shape of `razor`: the entries list determines every field of
the result. -/
theorem razor_ok_iff {oracle : String → String} {idea : Cand}
    {r : RazorResult} :
    razor oracle idea = .ok r ↔
      ∃ entries, idea.mapM (razorEntry oracle) = .ok entries ∧
        r = { kept := entries.map (fun p => (p.1, p.2.1)),
              cut := [],
              score := round3 (entries.foldl (fun acc p => acc + p.2.2) 0),
              hypotheses_total :=
                (entries.map (fun p => hypCount p.2.1)).foldl (· + ·) 0 } := by
  unfold razor
  cases h : idea.mapM (razorEntry oracle) with
  | ok entries => simp [eq_comm]
  | error e => simp

/-- C9.  For every candidate, a successful razor pass keeps exactly the
input's field names, in order and with multiplicity (in particular the set
of field names of `kept` equals the set of field names of the input): only
values are rewritten, no field is dropped. -/
theorem razor_kept_preserves_keys (oracle : String → String) (idea : Cand)
    (r : RazorResult) (h : razor oracle idea = .ok r) :
    r.kept.map Prod.fst = idea.map Prod.fst := by
  have h' := h
  rcases razor_ok_iff.mp h' with ⟨entries, hm, hr⟩
  subst hr
  simp only [List.map_map]
  exact forall₂_map_eq
    (fun kv p hp => by
      rcases razorEntry_ok_iff.mp hp with ⟨v, q, _, hpeq⟩
      simp [hpeq, Function.comp])
    (mapM_ok_iff.mp hm)

/-- Witness for C9 at a concrete run. -/
theorem razor_kept_preserves_keys_witness :
    ({ kept := [("a", Val.vbool true)], cut := [], score := 1,
       hypotheses_total := 1 } : RazorResult).kept.map Prod.fst =
      [("a", Val.vbool true)].map Prod.fst :=
  razor_kept_preserves_keys (fun _ => "") [("a", Val.vbool true)] _
    (by decide)

/-- C3.  The claim promises `1 / max(1, len)` so that an empty sequence
field is harmless, and a hypothesis count of at least 1 per field; the
code divides by the raw `len(value)` (f.py lines 52-53), so a candidate
with an empty list field makes `razor` raise `ZeroDivisionError` instead
of returning a score — and `hypotheses_total` would count such a field as
0, not ≥ 1.  This run evaluates the code at the failing input. -/
theorem razor_empty_sequence_divide_by_zero :
    razor (fun _ => "") [("xs", Val.vlist [])] =
        .error .zeroDivisionError ∧
      razorField (fun _ => "") "xs" (Val.vlist []) =
        .error .zeroDivisionError := by
  constructor <;> decide

/-- Keys are preserved through `mutateGo`, whatever the RNG decides. -/
theorem mutateGo_keys (rand : Rand) (rate : ℚ) :
    ∀ (n : Nat) (idea : Cand) (out : Cand × List String),
      mutateGo rand rate n idea = .ok out →
      out.1.map Prod.fst = idea.map Prod.fst := by
  intro n idea
  induction idea generalizing n with
  | nil =>
      intro out h
      cases h
      rfl
  | cons kv rest ih =>
      intro out h
      cases kv with
      | mk k v =>
        unfold mutateGo at h
        cases hf : mutateField rand rate n k v with
        | error e => rw [hf] at h; cases h
        | ok vm =>
            rw [hf] at h
            cases hg : mutateGo rand rate (n + 1) rest with
            | error e => rw [hg] at h; cases h
            | ok rm =>
                rw [hg] at h
                cases h
                simp [ih (n + 1) rm hg]

/-- C10.  `mutate` copies the dict (`dict(idea)`, f.py line 71) and only
rewrites values of existing keys, so whenever it returns, the returned
candidate has exactly the input's field names (in order); the caller's
mapping is never written to — in this embedding candidates are immutable
values, faithful precisely because of that copy. -/
theorem mutate_preserves_keys (rand : Rand) (idea : Cand) (rate : ℚ)
    (m : MutateResult) (h : mutate rand idea rate = .ok m) :
    m.idea.map Prod.fst = idea.map Prod.fst := by
  unfold mutate at h
  cases hg : mutateGo rand rate 0 idea with
  | error e => rw [hg] at h; cases h
  | ok out =>
      rw [hg] at h
      cases h
      exact mutateGo_keys rand rate 0 idea out hg

/-- Witness for C10 at a concrete run (the mutation fires and rewrites the
value into a superposition pair; the keys survive). -/
theorem mutate_preserves_keys_witness :
    ({ idea := [("a", Val.vtup [Val.vbool true, Val.vstr "alt_True"])],
       mutations := ["a: +superposition"] } : MutateResult).idea.map
        Prod.fst = [("a", Val.vbool true)].map Prod.fst :=
  mutate_preserves_keys ⟨fun _ => 0, fun _ => .superposition, fun _ => 0⟩
    [("a", Val.vbool true)] 1 _ (by decide)

/-- Each pass maps the sequence, so no pass changes its length. -/
theorem razorOnePass_length (oracle : String → String)
    (items : List String) :
    (razorOnePass oracle items).length = items.length :=
  List.length_map items (razorItem oracle)

/-- The fuel recursion preserves length. -/
theorem razorAllAux_length (oracle : String → String) :
    ∀ (fuel : Nat) (items : List String),
      (razorAllAux oracle fuel items).length = items.length := by
  intro fuel
  induction fuel with
  | zero => intro items; rfl
  | succ n ih =>
      intro items
      unfold razorAllAux
      by_cases h : razorOnePass oracle items ≠ items
      · simp only [if_pos h]
        rw [ih, razorOnePass_length]
      · simp only [if_neg h]
        rw [razorOnePass_length]

/-- The pass counter is bounded by the fuel. -/
theorem razorAllCountAux_le (oracle : String → String) :
    ∀ (fuel : Nat) (items : List String),
      razorAllCountAux oracle fuel items ≤ fuel := by
  intro fuel
  induction fuel with
  | zero => intro items; exact Nat.le_refl 0
  | succ n ih =>
      intro items
      unfold razorAllCountAux
      by_cases h : razorOnePass oracle items ≠ items
      · simp only [if_pos h]
        have := ih (razorOnePass oracle items)
        omega
      · simp only [if_neg h]
        omega

/-- C5.  For every input sequence and every oracle behaviour, `razor_all`
started at depth 0 performs at most `maxDepth + 1 = 4` full passes and
returns a sequence of exactly the input's length: no item is created or
dropped. -/
theorem razor_all_pass_bound_and_length (oracle : String → String)
    (items : List String) :
    (razor_all oracle items 0).length = items.length ∧
      razorAllPassCount oracle items 0 ≤ 4 :=
  ⟨razorAllAux_length oracle 4 items, razorAllCountAux_le oracle 4 items⟩

/-- At a fixpoint of the pass, any remaining fuel returns the input. -/
theorem razorAllAux_fixpoint {oracle : String → String}
    {items : List String} (h : razorOnePass oracle items = items) :
    ∀ fuel : Nat, razorAllAux oracle fuel items = items := by
  intro fuel
  cases fuel with
  | zero => rfl
  | succ n =>
      unfold razorAllAux
      simp [h]

/-- C8.  If one pass reproduces its input sequence element-wise (for
example because the oracle answers every item with a failure-marked
verdict), `razor_all` returns that sequence unchanged from any depth, and
when the depth cap is not yet reached exactly one pass (the one that
detected the fixpoint) is performed — no further pass occurs. -/
theorem razor_all_fixpoint_identity (oracle : String → String)
    (items : List String) (depth : Nat)
    (h : razorOnePass oracle items = items) :
    razor_all oracle items depth = items ∧
      (depth ≤ 3 → razorAllPassCount oracle items depth = 1) := by
  constructor
  · exact razorAllAux_fixpoint h _
  · intro hd
    have h4 : 4 - depth = (3 - depth) + 1 := by omega
    unfold razorAllPassCount
    rw [h4]
    unfold razorAllCountAux
    simp [h]

/-- Witness for C8: an oracle that always reports a failure marker leaves
`["a", "b"]` fixed, and one single pass detects it. -/
theorem razor_all_fixpoint_identity_witness :
    razor_all (fun _ => "[erreur: tout]") ["a", "b"] 0 = ["a", "b"] ∧
      (0 ≤ 3 →
        razorAllPassCount (fun _ => "[erreur: tout]") ["a", "b"] 0 = 1) :=
  razor_all_fixpoint_identity (fun _ => "[erreur: tout]") ["a", "b"] 0
    (by decide)

/-- `mapM` over a one-element list is one call. -/
theorem mapM_singleton {ε α β : Type} (g : α → Except ε β) (a : α) :
    [a].mapM g = g a >>= fun b => .ok [b] := by
  rw [List.mapM_cons, List.mapM_nil]
  cases g a <;> rfl

/-- C6.  For a candidate field holding a string longer than 10
characters, `razor` submits `"<fieldName>: <value>"` to the oracle; a
failure-marked verdict keeps the original value for 0.5 points, any other
verdict replaces the value with the superposition pair
`(original, verdict)` for 1.0 point — as the per-field step and as a full
`razor` run on the field. -/
theorem razor_long_string_oracle_branches (oracle : String → String)
    (k s : String) (h : s.length > 10) :
    razorField oracle k (.vstr s) =
      (if isFailureVerdict (oracle (k ++ ": " ++ s)) then
        .ok (.vstr s, 1 / 2)
      else .ok (.vtup [.vstr s, .vstr (oracle (k ++ ": " ++ s))], 1)) ∧
    razor oracle [(k, .vstr s)] =
      (if isFailureVerdict (oracle (k ++ ": " ++ s)) then
        .ok { kept := [(k, .vstr s)], cut := [], score := 1 / 2,
              hypotheses_total := 1 }
      else
        .ok { kept := [(k, .vtup [.vstr s,
                .vstr (oracle (k ++ ": " ++ s))])],
              cut := [], score := 1, hypotheses_total := 2 }) := by
  have hf : razorField oracle k (.vstr s) =
      (if isFailureVerdict (oracle (k ++ ": " ++ s)) then
        .ok (.vstr s, 1 / 2)
      else .ok (.vtup [.vstr s, .vstr (oracle (k ++ ": " ++ s))], 1)) := by
    simp only [razorField, if_pos h]
  refine ⟨hf, ?_⟩
  unfold razor
  rw [mapM_singleton]
  by_cases hv : isFailureVerdict (oracle (k ++ ": " ++ s))
  · rw [razorEntry, hf, if_pos hv]
    simp only [Except.bind, Bind.bind, if_pos hv]
    simp [hypCount]
    decide
  · rw [razorEntry, hf, if_neg hv]
    simp only [Except.bind, Bind.bind, if_neg hv]
    simp [hypCount]
    decide

/-- Witness for C6 at a concrete failure-marked run. -/
theorem razor_long_string_oracle_branches_witness :
    razorField (fun _ => "[timeout 60s]") "k" (.vstr "abcdefghijkl") =
      (if isFailureVerdict
          ((fun _ => "[timeout 60s]") ("k" ++ ": " ++ "abcdefghijkl")) then
        .ok (.vstr "abcdefghijkl", 1 / 2)
      else .ok (.vtup [.vstr "abcdefghijkl",
          .vstr ((fun _ => "[timeout 60s]")
            ("k" ++ ": " ++ "abcdefghijkl"))], 1)) ∧
    razor (fun _ => "[timeout 60s]") [("k", .vstr "abcdefghijkl")] =
      (if isFailureVerdict
          ((fun _ => "[timeout 60s]") ("k" ++ ": " ++ "abcdefghijkl")) then
        .ok { kept := [("k", .vstr "abcdefghijkl")], cut := [],
              score := 1 / 2, hypotheses_total := 1 }
      else
        .ok { kept := [("k", .vtup [.vstr "abcdefghijkl",
                .vstr ((fun _ => "[timeout 60s]")
                  ("k" ++ ": " ++ "abcdefghijkl"))])],
              cut := [], score := 1, hypotheses_total := 2 }) :=
  razor_long_string_oracle_branches (fun _ => "[timeout 60s]") "k"
    "abcdefghijkl" (by decide)

/-- C2.  The spec requires the adapter to return a verdict carrying the
TIMEOUT marker on timeout — the marker `razor` (f.py line 43) and
`razor_all` (delta.py line 36) branch on.  The adapter never raises (the
model is total by construction, mirroring the catch-all `try/except` of
o.py lines 50-72), but on a timeout `o` returns `str({"error": str(e)})`
(o.py lines 71-72 and 98-99), which contains neither `"[timeout"` nor
`"[erreur"`: the failure is indistinguishable from a successful verdict
to the engine, and `razor` stores it in a superposition pair with full
score as if the oracle had answered. -/
theorem o_timeout_verdict_lacks_failure_markers :
    strContains (o (fun _ => none) "hello" .timedout) "[timeout" = false ∧
    strContains (o (fun _ => none) "hello" .timedout) "[erreur" = false ∧
    isFailureVerdict (o (fun _ => none) "hello" .timedout) = false ∧
    razor (fun _ => o (fun _ => none) "hello" .timedout)
        [("claim", Val.vstr "une longue affirmation")] =
      .ok { kept := [("claim", Val.vtup [Val.vstr "une longue affirmation",
              Val.vstr (o (fun _ => none) "hello" .timedout)])],
            cut := [], score := 1, hypotheses_total := 2 } := by
  refine ⟨by decide, by decide, by decide, ?_⟩
  decide

/-- C1, counterexample.  On an even population (here of size 2) `select`
keeps `len // 2 + 1` members — both of them — while the claim promises
`ceil(2 / 2) = 1` survivor. -/
theorem select_two_survivors_from_pair :
    select (fun _ => "") [[("a", Val.vbool true)], [("b", Val.vbool true)]]
        = .ok [[("a", Val.vbool true)], [("b", Val.vbool true)]] ∧
      (2 + 1) / 2 = 1 ∧
      ¬([[("a", Val.vbool true)], [("b", Val.vbool true)]] : List Cand).length
          = (2 + 1) / 2 := by
  refine ⟨by decide, by decide, by decide⟩

/-- The score ordering is total. -/
instance : IsTotal (ℚ × Cand) scoreGE := ⟨fun a b => le_total b.1 a.1⟩

/-- The score ordering is transitive. -/
instance : IsTrans (ℚ × Cand) scoreGE :=
  ⟨fun _ _ _ h1 h2 => le_trans h2 h1⟩

/-- Success shape of `scoreOne`: the candidate itself rides along as the
second component. -/
theorem scoreOne_ok {oracle : String → String} {idea : Cand}
    {p : ℚ × Cand} (h : scoreOne oracle idea = .ok p) : p.2 = idea := by
  unfold scoreOne at h
  cases hr : razor oracle idea with
  | ok r => rw [hr] at h; cases h; rfl
  | error e => rw [hr] at h; cases h

/-- Inserting an entry never disturbs the relative order of entries with
any given score: the filter at a score level either gains the new entry
up front (when it has that score) or is unchanged. -/
theorem orderedInsert_filter_score (x : ℚ × Cand) (t : List (ℚ × Cand))
    (q : ℚ) :
    (t.orderedInsert scoreGE x).filter (fun y => decide (y.1 = q)) =
      (if x.1 = q then
        x :: t.filter (fun y => decide (y.1 = q))
      else t.filter (fun y => decide (y.1 = q))) := by
  rw [List.orderedInsert_eq_take_drop, List.filter_append]
  by_cases hx : x.1 = q
  · have htw : (t.takeWhile fun b => decide ¬scoreGE x b).filter
        (fun y => decide (y.1 = q)) = [] := by
      rw [List.filter_eq_nil_iff]
      intro b hb
      have hpred := List.mem_takeWhile_imp hb
      simp only [decide_eq_true_eq] at hpred
      have hlt : x.1 < b.1 := lt_of_not_le hpred
      simp only [decide_eq_true_eq]
      intro hbq
      rw [hbq, hx] at hlt
      exact lt_irrefl q hlt
    rw [htw, List.nil_append, if_pos hx, List.filter_cons,
      if_pos (by simp [hx])]
    have ht : t.filter (fun y => decide (y.1 = q)) =
        (t.dropWhile fun b => decide ¬scoreGE x b).filter
          (fun y => decide (y.1 = q)) := by
      conv_lhs => rw [← List.takeWhile_append_dropWhile
        (p := fun b => decide ¬scoreGE x b) (l := t)]
      rw [List.filter_append, htw, List.nil_append]
    rw [ht]
  · rw [if_neg hx, List.filter_cons, if_neg (by simp [hx]),
      ← List.filter_append, List.takeWhile_append_dropWhile]

/-- Python's stable sort never disturbs the relative order of entries
sharing a score: filtering any score level commutes with sorting. -/
theorem pySortDesc_filter_score (l : List (ℚ × Cand)) (q : ℚ) :
    (pySortDesc l).filter (fun y => decide (y.1 = q)) =
      l.filter (fun y => decide (y.1 = q)) := by
  induction l with
  | nil => rfl
  | cons x t ih =>
      show ((List.insertionSort scoreGE t).orderedInsert scoreGE x).filter
          (fun y => decide (y.1 = q)) = _
      rw [orderedInsert_filter_score]
      by_cases hx : x.1 = q
      · rw [if_pos hx]
        rw [show (List.insertionSort scoreGE t).filter
            (fun y => decide (y.1 = q)) =
            t.filter (fun y => decide (y.1 = q)) from ih]
        rw [List.filter_cons, if_pos (by simp [hx])]
      · rw [if_neg hx]
        rw [show (List.insertionSort scoreGE t).filter
            (fun y => decide (y.1 = q)) =
            t.filter (fun y => decide (y.1 = q)) from ih]
        rw [List.filter_cons, if_neg (by simp [hx])]

/-- C1, amended.  `select` re-scores every candidate with `razor`, sorts
descending by score with Python's stable sort, and returns the first
`len // 2 + 1` entries — `floor(n / 2) + 1` survivors, which is
`ceil(n / 2)` for odd `n` but one more for even `n`, and at least one
survivor even for `n = 1`; ties retain the original relative order. -/
theorem select_keeps_floor_half_plus_one (oracle : String → String)
    (pop : List Cand) (scored : List (ℚ × Cand))
    (hs : pop.mapM (scoreOne oracle) = .ok scored) (hne : pop ≠ []) :
    ∃ survivors,
      select oracle pop = .ok survivors ∧
      survivors =
        ((pySortDesc scored).take (pop.length / 2 + 1)).map Prod.snd ∧
      survivors.length = pop.length / 2 + 1 ∧
      1 ≤ survivors.length ∧
      List.Sorted scoreGE (pySortDesc scored) ∧
      (∀ q : ℚ, (pySortDesc scored).filter (fun y => decide (y.1 = q)) =
        scored.filter (fun y => decide (y.1 = q))) := by
  have hlen : scored.length = pop.length :=
    (List.Forall₂.length_eq (mapM_ok_iff.mp hs)).symm
  have hpos : 0 < pop.length := List.length_pos.mpr hne
  refine ⟨((pySortDesc scored).take (scored.length / 2 + 1)).map Prod.snd,
    ?_, by rw [hlen], ?_, ?_, List.sorted_insertionSort scoreGE scored,
    fun q => pySortDesc_filter_score scored q⟩
  · unfold select
    rw [hs]
  · have hsl : (pySortDesc scored).length = pop.length := by
      rw [show pySortDesc scored = scored.insertionSort scoreGE from rfl,
        List.length_insertionSort, hlen]
    rw [List.length_map, List.length_take, hlen, hsl,
      min_eq_left (by omega)]
  · have hsl : (pySortDesc scored).length = pop.length := by
      rw [show pySortDesc scored = scored.insertionSort scoreGE from rfl,
        List.length_insertionSort, hlen]
    rw [List.length_map, List.length_take, hlen, hsl]
    exact le_min (by omega) (by omega)

/-- Witness for C1 at a concrete population of three (scores tie at 1, so
the stable order is kept and two of three survive). -/
theorem select_keeps_floor_half_plus_one_witness :
    ∃ survivors,
      select (fun _ => "") [[("a", Val.vbool true)], [("b", Val.vbool false)],
          [("c", Val.vbool true)]] = .ok survivors ∧
      survivors =
        ((pySortDesc [(1, [("a", Val.vbool true)]),
            (1, [("b", Val.vbool false)]), (1, [("c", Val.vbool true)])]).take
          (([[("a", Val.vbool true)], [("b", Val.vbool false)],
            [("c", Val.vbool true)]] : List Cand).length / 2 + 1)).map
          Prod.snd ∧
      survivors.length =
        ([[("a", Val.vbool true)], [("b", Val.vbool false)],
          [("c", Val.vbool true)]] : List Cand).length / 2 + 1 ∧
      1 ≤ survivors.length ∧
      List.Sorted scoreGE (pySortDesc [(1, [("a", Val.vbool true)]),
        (1, [("b", Val.vbool false)]), (1, [("c", Val.vbool true)])]) ∧
      (∀ q : ℚ,
        (pySortDesc [(1, [("a", Val.vbool true)]),
          (1, [("b", Val.vbool false)]),
          (1, [("c", Val.vbool true)])]).filter
            (fun y => decide (y.1 = q)) =
        [(1, [("a", Val.vbool true)]), (1, [("b", Val.vbool false)]),
          (1, [("c", Val.vbool true)])].filter
            (fun y => decide (y.1 = q))) :=
  select_keeps_floor_half_plus_one (fun _ => "")
    [[("a", Val.vbool true)], [("b", Val.vbool false)],
      [("c", Val.vbool true)]]
    [(1, [("a", Val.vbool true)]), (1, [("b", Val.vbool false)]),
      (1, [("c", Val.vbool true)])]
    (by decide) (by decide)

/-- `goodList` is `goodVal` of every element. -/
theorem goodList_iff {xs : List Val} :
    goodList xs = true ↔ ∀ v ∈ xs, goodVal v = true := by
  induction xs with
  | nil => simp [goodList]
  | cons x t ih =>
      rw [goodList, Bool.and_eq_true, ih]
      simp

/-- `goodCand` is `goodVal` of every field value. -/
theorem goodCand_iff {c : Cand} :
    goodCand c = true ↔ ∀ kv ∈ c, goodVal kv.2 = true := by
  simp [goodCand, List.all_eq_true]

/-- On a well-formed value `razorField` cannot raise, and the kept value
is again well-formed (either the original value or a two-element tuple of
strings paired with it). -/
theorem razorField_ok_of_good (oracle : String → String) (k : String)
    {v : Val} (hv : goodVal v = true) :
    ∃ w q, razorField oracle k v = .ok (w, q) ∧ goodVal w = true := by
  cases v with
  | vstr s =>
      by_cases hl : s.length > 10
      · by_cases hf : isFailureVerdict (oracle (k ++ ": " ++ s))
        · exact ⟨.vstr s, 1 / 2, by simp [razorField, hl, hf], rfl⟩
        · refine ⟨.vtup [.vstr s, .vstr (oracle (k ++ ": " ++ s))], 1,
            by simp [razorField, hl, hf], ?_⟩
          simp [goodVal, goodList]
      · exact ⟨.vstr s, 1, by simp [razorField, hl], rfl⟩
  | vint i => exact ⟨.vint i, 1, by simp [razorField], rfl⟩
  | vbool b => exact ⟨.vbool b, 1, by simp [razorField], rfl⟩
  | vlist xs =>
      have hne : xs.length ≠ 0 := by
        rw [goodVal, Bool.and_eq_true] at hv
        simpa [List.isEmpty_iff, List.length_eq_zero] using hv.1
      exact ⟨.vlist xs, 1 / (xs.length : ℚ), by simp [razorField, hne], hv⟩
  | vtup xs =>
      have hne : xs.length ≠ 0 := by
        rw [goodVal, Bool.and_eq_true] at hv
        simpa [List.isEmpty_iff, List.length_eq_zero] using hv.1
      exact ⟨.vtup xs, 1 / (xs.length : ℚ), by simp [razorField, hne], hv⟩

/-- On a well-formed candidate every `razorEntry` succeeds, and the kept
values are well-formed. -/
theorem razor_entries_of_good (oracle : String → String) :
    ∀ {c : Cand}, goodCand c = true →
      ∃ entries, c.mapM (razorEntry oracle) = .ok entries ∧
        ∀ p ∈ entries, goodVal p.2.1 = true := by
  intro c
  induction c with
  | nil =>
      intro _
      exact ⟨[], by rw [List.mapM_nil]; rfl, by simp⟩
  | cons kv t ih =>
      intro hc
      rw [goodCand_iff] at hc
      obtain ⟨w, q, hf, hw⟩ :=
        razorField_ok_of_good oracle kv.1
          (hc kv (List.mem_cons_self kv t))
      obtain ⟨entries, hm, hgood⟩ := ih (goodCand_iff.mpr
        (fun x hx => hc x (List.mem_cons_of_mem kv hx)))
      refine ⟨(kv.1, w, q) :: entries, ?_, ?_⟩
      · rw [List.mapM_cons]
        refine except_bind_ok.mpr ⟨(kv.1, w, q), ?_,
          except_bind_ok.mpr ⟨entries, hm, rfl⟩⟩
        simp [razorEntry, hf]
      · intro p hp
        rcases List.mem_cons.mp hp with rfl | hp'
        · exact hw
        · exact hgood p hp'

/-- On a well-formed candidate `razor` cannot raise; the kept candidate is
again well-formed and keeps exactly the input's keys. -/
theorem razor_ok_of_good (oracle : String → String) {c : Cand}
    (hc : goodCand c = true) :
    ∃ r, razor oracle c = .ok r ∧ goodCand r.kept = true ∧
      r.kept.map Prod.fst = c.map Prod.fst := by
  obtain ⟨entries, hm, hgood⟩ := razor_entries_of_good oracle hc
  refine ⟨_, razor_ok_iff.mpr ⟨entries, hm, rfl⟩, ?_, ?_⟩
  · rw [goodCand_iff]
    intro kv hkv
    rcases List.mem_map.mp hkv with ⟨p, hp, rfl⟩
    exact hgood p hp
  · exact razor_kept_preserves_keys oracle c _
      (razor_ok_iff.mpr ⟨entries, hm, rfl⟩)

/-- On a well-formed candidate `scoreOne` succeeds, carrying the candidate
along. -/
theorem scoreOne_ok_of_good (oracle : String → String) {c : Cand}
    (hc : goodCand c = true) :
    ∃ q : ℚ, scoreOne oracle c = .ok (q, c) := by
  obtain ⟨r, hr, -, -⟩ := razor_ok_of_good oracle hc
  exact ⟨r.score, by rw [scoreOne, hr]⟩

/-- On a well-formed candidate `razorKept` succeeds with a well-formed
result. -/
theorem razorKept_ok_of_good (oracle : String → String) {c : Cand}
    (hc : goodCand c = true) :
    ∃ kept, razorKept oracle c = .ok kept ∧ goodCand kept = true := by
  obtain ⟨r, hr, hgood, -⟩ := razor_ok_of_good oracle hc
  exact ⟨r.kept, by rw [razorKept, hr], hgood⟩

/-- `mapM` over `Except` succeeds when every element succeeds. -/
theorem mapM_ok_of_forall {ε α β : Type} {g : α → Except ε β} :
    ∀ {l : List α}, (∀ a ∈ l, ∃ b, g a = .ok b) →
      ∃ out, l.mapM g = .ok out := by
  intro l
  induction l with
  | nil => intro _; exact ⟨[], by rw [List.mapM_nil]; rfl⟩
  | cons a t ih =>
      intro h
      obtain ⟨b, hb⟩ := h a (List.mem_cons_self a t)
      obtain ⟨bs, hbs⟩ := ih (fun x hx => h x (List.mem_cons_of_mem a hx))
      refine ⟨b :: bs, ?_⟩
      rw [List.mapM_cons]
      exact except_bind_ok.mpr ⟨b, hb, except_bind_ok.mpr ⟨bs, hbs, rfl⟩⟩

/-- Each output of a `Forall₂` comes from some input. -/
theorem forall₂_mem_right {α β : Type} {R : α → β → Prop} :
    ∀ {l : List α} {out : List β}, List.Forall₂ R l out →
      ∀ b ∈ out, ∃ a ∈ l, R a b
  | _, _, List.Forall₂.nil, b, hb => absurd hb (List.not_mem_nil b)
  | _, _, List.Forall₂.cons hab tl, b, hb => by
      rcases List.mem_cons.mp hb with rfl | hb'
      · exact ⟨_, List.mem_cons_self _ _, hab⟩
      · obtain ⟨a, ha, hr⟩ := forall₂_mem_right tl b hb'
        exact ⟨a, List.mem_cons_of_mem _ ha, hr⟩

/-- On a well-formed value `mutateField` cannot raise (the only raising
branch is `random.choice` over an empty tuple, which well-formedness
excludes) and its result is again well-formed. -/
theorem mutateField_ok_of_good (rand : Rand) (rate : ℚ) (n : Nat)
    (k : String) {v : Val} (hv : goodVal v = true) :
    ∃ w ms, mutateField rand rate n k v = .ok (w, ms) ∧
      goodVal w = true := by
  unfold mutateField
  by_cases hd : rand.draw n < rate
  · simp only [if_pos hd]
    cases hm : rand.mtype n with
    | superposition =>
        cases v with
        | vtup vs => exact ⟨.vtup vs, [], rfl, hv⟩
        | vstr s =>
            exact ⟨_, _, rfl, by simp [goodVal, goodList]⟩
        | vint i =>
            exact ⟨_, _, rfl, by simp [goodVal, goodList]⟩
        | vbool b =>
            exact ⟨_, _, rfl, by simp [goodVal, goodList]⟩
        | vlist xs =>
            refine ⟨_, _, rfl, ?_⟩
            rw [goodVal, Bool.and_eq_true, goodList, goodList,
              Bool.and_eq_true, Bool.and_eq_true]
            exact ⟨by simp, hv, rfl, rfl⟩
    | simplify =>
        cases v with
        | vtup vs =>
            rw [goodVal, Bool.and_eq_true] at hv
            have hlen : 0 < vs.length := by
              cases vs with
              | nil => simp [List.isEmpty] at hv
              | cons a t => simp
            have hlt : rand.pick n % vs.length < vs.length :=
              Nat.mod_lt _ hlen
            refine ⟨vs.get ⟨rand.pick n % vs.length, hlt⟩,
              [k ++ ": collapse"], ?_, ?_⟩
            · dsimp only
              rw [List.get?_eq_get hlt]
            · exact goodList_iff.mp hv.2 _ (vs.get_mem _ _)
        | vstr s => exact ⟨_, _, rfl, hv⟩
        | vint i => exact ⟨_, _, rfl, hv⟩
        | vbool b => exact ⟨_, _, rfl, hv⟩
        | vlist xs => exact ⟨_, _, rfl, hv⟩
    | invert =>
        cases v with
        | vbool b => exact ⟨.vbool !b, _, rfl, rfl⟩
        | vstr s => exact ⟨_, _, rfl, hv⟩
        | vint i => exact ⟨_, _, rfl, hv⟩
        | vlist xs => exact ⟨_, _, rfl, hv⟩
        | vtup xs => exact ⟨_, _, rfl, hv⟩
  · simp only [if_neg hd]
    exact ⟨v, [], rfl, hv⟩

/-- On a well-formed candidate `mutateGo` cannot raise; its result is
well-formed and keeps exactly the input's keys. -/
theorem mutateGo_ok_of_good (rand : Rand) (rate : ℚ) :
    ∀ (n : Nat) {c : Cand}, goodCand c = true →
      ∃ out, mutateGo rand rate n c = .ok out ∧
        goodCand out.1 = true ∧ out.1.map Prod.fst = c.map Prod.fst := by
  intro n c
  induction c generalizing n with
  | nil => intro _; exact ⟨([], []), rfl, rfl, rfl⟩
  | cons kv t ih =>
      intro hc
      rw [goodCand_iff] at hc
      obtain ⟨w, ms, hf, hw⟩ :=
        mutateField_ok_of_good rand rate n kv.1
          (hc kv (List.mem_cons_self kv t))
      obtain ⟨out, hgo, hgood, hkeys⟩ :=
        ih (n + 1) (goodCand_iff.mpr
          (fun x hx => hc x (List.mem_cons_of_mem kv hx)))
      refine ⟨((kv.1, w) :: out.1, ms ++ out.2), ?_, ?_, ?_⟩
      · cases kv with
        | mk k v =>
            unfold mutateGo
            rw [hf, hgo]
      · rw [goodCand_iff]
        intro x hx
        rcases List.mem_cons.mp hx with rfl | hx'
        · exact hw
        · exact goodCand_iff.mp hgood x hx'
      · simp [hkeys]

/-- On a well-formed candidate `mutate` cannot raise; the mutated
candidate is well-formed with the same keys. -/
theorem mutate_ok_of_good (rand : Rand) (rate : ℚ) {c : Cand}
    (hc : goodCand c = true) :
    ∃ m, mutate rand c rate = .ok m ∧ goodCand m.idea = true ∧
      m.idea.map Prod.fst = c.map Prod.fst := by
  obtain ⟨out, hgo, hgood, hkeys⟩ :=
    mutateGo_ok_of_good rand rate 0 hc
  exact ⟨{ idea := out.1, mutations := out.2 },
    by rw [mutate, hgo], hgood, hkeys⟩

/-- On a well-formed candidate `mutateIdea` succeeds with a well-formed
candidate over the same keys. -/
theorem mutateIdea_ok_of_good (rand : Rand) (rate : ℚ) {c : Cand}
    (hc : goodCand c = true) :
    ∃ m, mutateIdea rand c rate = .ok m ∧ goodCand m = true := by
  obtain ⟨m, hm, hgood, -⟩ :=
    mutate_ok_of_good rand rate hc
  exact ⟨m.idea, by rw [mutateIdea, hm], hgood⟩

/-- On a non-empty population of well-formed candidates `select` cannot
raise; it returns a non-empty list of members of the population (hence
well-formed). -/
theorem select_ok_of_good (oracle : String → String) {pop : List Cand}
    (hg : ∀ c ∈ pop, goodCand c = true) (hne : pop ≠ []) :
    ∃ survivors, select oracle pop = .ok survivors ∧ survivors ≠ [] ∧
      ∀ s ∈ survivors, goodCand s = true := by
  obtain ⟨scored, hs⟩ := mapM_ok_of_forall
    (fun c hc => (scoreOne_ok_of_good oracle (hg c hc)).elim
      (fun q hq => ⟨(q, c), hq⟩))
  have hfa := mapM_ok_iff.mp hs
  have hlen : scored.length = pop.length :=
    (List.Forall₂.length_eq hfa).symm
  have hpos : 0 < pop.length := List.length_pos.mpr hne
  refine ⟨_, by unfold select; rw [hs], ?_, ?_⟩
  · have hslen : (pySortDesc scored).length = pop.length := by
      rw [show pySortDesc scored = scored.insertionSort scoreGE from rfl,
        List.length_insertionSort, hlen]
    rw [← List.length_pos, List.length_map, List.length_take, hslen, hlen]
    exact lt_min (by omega) (by omega)
  · intro s hsmem
    rcases List.mem_map.mp hsmem with ⟨p, hp, rfl⟩
    have hp2 : p ∈ scored.insertionSort scoreGE := List.mem_of_mem_take hp
    have hp3 : p ∈ scored := (List.mem_insertionSort scoreGE).mp hp2
    obtain ⟨c, hcpop, hR⟩ := forall₂_mem_right hfa p hp3
    rw [scoreOne_ok hR]
    exact hg c hcpop

/-- On a population of well-formed candidates `razorPop` cannot raise;
the razored population has the same size and stays well-formed. -/
theorem razorPop_ok_of_good (oracle : String → String) {pop : List Cand}
    (hg : ∀ c ∈ pop, goodCand c = true) :
    ∃ razored, razorPop oracle pop = .ok razored ∧
      razored.length = pop.length ∧ ∀ c ∈ razored, goodCand c = true := by
  obtain ⟨razored, hr⟩ := mapM_ok_of_forall
    (fun c hc => (razorKept_ok_of_good oracle
      (hg c hc)).imp (fun kept h => h.1))
  have hfa := mapM_ok_iff.mp hr
  refine ⟨razored, hr, (List.Forall₂.length_eq hfa).symm, ?_⟩
  intro c hcmem
  obtain ⟨a, ha, hR⟩ := forall₂_mem_right hfa c hcmem
  obtain ⟨kept, hk, hkg⟩ := razorKept_ok_of_good oracle (hg a ha)
  rw [hR] at hk
  cases hk
  exact hkg

/-- Members of the validated population are razored members. -/
theorem validPop_mem {razored : List Cand} :
    ∀ c ∈ validPop razored, c ∈ razored := by
  intro c hc
  unfold validPop at hc
  by_cases he :
      (razored.filter (fun idea => (check_axioms idea).1)).isEmpty
  · rw [if_pos he] at hc
    exact List.mem_of_mem_take hc
  · rw [if_neg he] at hc
    exact (List.mem_filter.mp hc).1

/-- The validation fallback keeps the population non-empty. -/
theorem validPop_ne_nil {razored : List Cand} (h : razored ≠ []) :
    validPop razored ≠ [] := by
  unfold validPop
  by_cases he :
      (razored.filter (fun idea => (check_axioms idea).1)).isEmpty
  · rw [if_pos he]
    cases razored with
    | nil => exact absurd rfl h
    | cons a t => simp
  · rw [if_neg he]
    intro hnil
    rw [hnil] at he
    exact he rfl

/-- When every razored member fails the axiom check, the validation stage
keeps exactly the first razored member (f.py lines 181-182). -/
theorem validPop_all_fail {razored : List Cand} (h : razored ≠ [])
    (hf : ∀ r ∈ razored, (check_axioms r).1 = false) :
    validPop razored = razored.take 1 ∧ (validPop razored).length = 1 := by
  have hfilter : razored.filter (fun idea => (check_axioms idea).1) = [] := by
    rw [List.filter_eq_nil_iff]
    intro a ha
    simp [hf a ha]
  have heq : validPop razored = razored.take 1 := by
    unfold validPop
    rw [hfilter]
    rfl
  refine ⟨heq, ?_⟩
  rw [heq]
  cases razored with
  | nil => exact absurd rfl h
  | cons a t => simp

/-- On well-formed survivors `offspring` cannot raise; it doubles the
population (survivor plus mutated child, in order) and keeps it
well-formed. -/
theorem offspring_ok_of_good (rands : Nat → Rand) :
    ∀ {survivors : List Cand} (ctr : Nat),
      (∀ s ∈ survivors, goodCand s = true) →
      ∃ newpop ctr',
        offspring rands ctr survivors = .ok (newpop, ctr') ∧
        newpop.length = 2 * survivors.length ∧
        ∀ c ∈ newpop, goodCand c = true := by
  intro survivors
  induction survivors with
  | nil => intro ctr _; exact ⟨[], ctr, rfl, rfl, by simp⟩
  | cons s rest ih =>
      intro ctr hg
      obtain ⟨child, hchild, hcgood⟩ :=
        mutateIdea_ok_of_good (rands ctr) (1 / 10)
          (hg s (List.mem_cons_self s rest))
      obtain ⟨tail, ctr', htail, hlen, htgood⟩ :=
        ih (ctr + 1) (fun x hx => hg x (List.mem_cons_of_mem s hx))
      refine ⟨s :: child :: tail, ctr', ?_, ?_, ?_⟩
      · unfold offspring
        rw [hchild, htail]
      · simp only [List.length_cons, hlen]
        omega
      · intro c hc
        rcases List.mem_cons.mp hc with rfl | hc'
        · exact hg c (List.mem_cons_self c rest)
        · rcases List.mem_cons.mp hc' with rfl | hc''
          · exact hcgood
          · exact htgood c hc''

/-- One generation of `f` on a non-empty, well-formed population cannot
raise and produces a non-empty, well-formed population. -/
theorem genStep_ok_of_good (oracle : String → String) (rands : Nat → Rand)
    (gen : Nat) (st : List Cand × Nat × List GenRecord)
    (hg : ∀ c ∈ st.1, goodCand c = true) (hne : st.1 ≠ []) :
    ∃ pop' ctr' hist',
      genStep oracle rands gen st = .ok (pop', ctr', hist') ∧
      pop' ≠ [] ∧ ∀ c ∈ pop', goodCand c = true := by
  obtain ⟨razored, hraz, hrlen, hrgood⟩ :=
    razorPop_ok_of_good oracle hg
  have hrne : razored ≠ [] := by
    intro hnil
    rw [hnil] at hrlen
    exact hne (List.length_eq_zero.mp hrlen.symm)
  have hvgood : ∀ c ∈ validPop razored, goodCand c = true :=
    fun c hc => hrgood c (validPop_mem c hc)
  obtain ⟨survivors, hsel, hsne, hsgood⟩ :=
    select_ok_of_good oracle hvgood (validPop_ne_nil hrne)
  obtain ⟨newpop, ctr', hoff, hnlen, hngood⟩ :=
    offspring_ok_of_good rands st.2.1 hsgood
  have hnne : newpop ≠ [] := by
    intro hnil
    rw [hnil] at hnlen
    have h0 : (List.length ([] : List Cand)) = 0 := rfl
    exact hsne (List.length_eq_zero.mp (by omega))
  cases hpop : newpop with
  | nil => exact absurd hpop hnne
  | cons first tailp =>
      subst hpop
      have hfgood : goodCand first = true :=
        hngood first (List.mem_cons_self first tailp)
      obtain ⟨best, hbest, -, -⟩ :=
        razor_ok_of_good oracle hfgood
      refine ⟨first :: tailp, ctr',
        st.2.2 ++ [{ gen := gen, pop_size := (first :: tailp).length,
                     best_score := best.score,
                     best_hypotheses := best.hypotheses_total }],
        ?_, hnne, hngood⟩
      unfold genStep
      rw [hraz]
      dsimp only
      rw [hsel]
      dsimp only
      rw [hoff]
      dsimp only
      rw [hbest]

/-- C4.  On any non-empty generation of well-formed candidates the
evolution loop's generation step does not raise and produces a non-empty
population; and whenever every razored member fails the axiom check, the
validation stage falls back to exactly one unvalidated candidate — the
first razored member — rather than emptying the population. -/
theorem genStep_population_nonempty (oracle : String → String)
    (rands : Nat → Rand) (gen : Nat)
    (st : List Cand × Nat × List GenRecord)
    (hg : ∀ c ∈ st.1, goodCand c = true) (hne : st.1 ≠ []) :
    (∃ pop' ctr' hist',
        genStep oracle rands gen st = .ok (pop', ctr', hist') ∧
        pop' ≠ []) ∧
      ∀ razored, razorPop oracle st.1 = .ok razored →
        (∀ r ∈ razored, (check_axioms r).1 = false) →
        validPop razored = razored.take 1 ∧
          (validPop razored).length = 1 := by
  constructor
  · obtain ⟨pop', ctr', hist', hstep, hne', -⟩ :=
      genStep_ok_of_good oracle rands gen st hg hne
    exact ⟨pop', ctr', hist', hstep, hne'⟩
  · intro razored hraz hfail
    have hrne : razored ≠ [] := by
      intro hnil
      have hfa := mapM_ok_iff.mp hraz
      have := List.Forall₂.length_eq hfa
      rw [hnil] at this
      exact hne (List.length_eq_zero.mp this)
    exact validPop_all_fail hrne hfail

/-- Witness for C4: a single candidate violating axiom 2
(`force_choice`) — every razored member fails validation, yet the
generation completes with a non-empty population carrying exactly the
first razored member through the fallback. -/
theorem genStep_population_nonempty_witness :
    (∃ pop' ctr' hist',
        genStep (fun _ => "") trivRands 0
            ([[("force_choice", Val.vbool true)]], 5,
              ([] : List GenRecord)) = .ok (pop', ctr', hist') ∧
        pop' ≠ []) ∧
      ∀ razored,
        razorPop (fun _ => "")
            ([[("force_choice", Val.vbool true)]], 5,
              ([] : List GenRecord)).1 = .ok razored →
        (∀ r ∈ razored, (check_axioms r).1 = false) →
        validPop razored = razored.take 1 ∧
          (validPop razored).length = 1 :=
  genStep_population_nonempty (fun _ => "") trivRands 0
    ([[("force_choice", Val.vbool true)]], 5, ([] : List GenRecord))
    (by decide) (by decide)

/-- On a well-formed seed the initial population builds without raising:
the seed plus five mutated variants, all well-formed. -/
theorem initPop_ok_of_good (rands : Nat → Rand) {seed : Cand}
    (hg : goodCand seed = true) :
    ∃ pop0, initPop rands seed = .ok pop0 ∧ pop0 ≠ [] ∧
      ∀ c ∈ pop0, goodCand c = true := by
  obtain ⟨vars, hv⟩ := mapM_ok_of_forall
    (l := List.range 5)
    (g := fun i => mutateIdea (rands i) seed (3 / 10))
    (fun i _ => (mutateIdea_ok_of_good (rands i) (3 / 10)
      hg).elim (fun m hm => ⟨m, hm.1⟩))
  have hfa := mapM_ok_iff.mp hv
  refine ⟨seed :: vars, ?_, by simp, ?_⟩
  · unfold initPop
    rw [hv]
  · intro c hc
    rcases List.mem_cons.mp hc with rfl | hc'
    · exact hg
    · obtain ⟨i, -, hR⟩ := forall₂_mem_right hfa c hc'
      obtain ⟨m, hm, hmg⟩ := mutateIdea_ok_of_good (rands i) (3 / 10)
        hg
      rw [hR] at hm
      cases hm
      exact hmg

/-- The generation loop preserves success, well-formedness and
non-emptiness over any number of generations. -/
theorem fLoop_ok_of_good (oracle : String → String) (rands : Nat → Rand) :
    ∀ (n gen : Nat) (st : List Cand × Nat × List GenRecord),
      (∀ c ∈ st.1, goodCand c = true) → st.1 ≠ [] →
      ∃ st', fLoop oracle rands gen n st = .ok st' ∧
        (∀ c ∈ st'.1, goodCand c = true) ∧ st'.1 ≠ [] := by
  intro n
  induction n with
  | zero => intro gen st hg hne; exact ⟨st, rfl, hg, hne⟩
  | succ m ih =>
      intro gen st hg hne
      obtain ⟨pop', ctr', hist', hstep, hne', hgood'⟩ :=
        genStep_ok_of_good oracle rands gen st hg hne
      obtain ⟨st', hloop, hg', hne''⟩ :=
        ih (gen + 1) (pop', ctr', hist') hgood' hne'
      refine ⟨st', ?_, hg', hne''⟩
      unfold fLoop
      rw [hstep]
      exact hloop

/-- C7, amended.  `f` performs no validation of its seed or its
generation budget: for every well-formed seed (the empty candidate
included), every generation budget (0 included) and every oracle
behaviour — failure-marked verdicts included — it returns a normal
result, never an error; oracle-level problems are absorbed at the razor
stage and never raise past `f`. -/
theorem f_returns_ok_for_good_seed (oracle : String → String)
    (rands : Nat → Rand) (seed : Cand) (generations : Nat)
    (hg : goodCand seed = true) :
    ∃ r, f oracle rands seed generations = .ok r := by
  obtain ⟨pop0, hini, hne0, hg0⟩ :=
    initPop_ok_of_good rands hg
  obtain ⟨st', hloop, hg', hne'⟩ :=
    fLoop_ok_of_good oracle rands generations 0 (pop0, 5, []) hg0 hne0
  obtain ⟨final_scores, hfin⟩ := mapM_ok_of_forall
    (fun c hc => (scoreOne_ok_of_good oracle
      (hg' c hc)).elim (fun q hq => ⟨(q, c), hq⟩))
  have hflen : final_scores.length = st'.1.length :=
    (List.Forall₂.length_eq (mapM_ok_iff.mp hfin)).symm
  have hfpos : 0 < (pySortDesc final_scores).length := by
    rw [show pySortDesc final_scores =
        final_scores.insertionSort scoreGE from rfl,
      List.length_insertionSort, hflen]
    exact List.length_pos.mpr hne'
  cases hsort : pySortDesc final_scores with
  | nil => rw [hsort] at hfpos; exact absurd hfpos (by simp)
  | cons hd tl =>
      refine ⟨{ input := seed, output := hd.2,
                generations := generations, history := st'.2.2,
                final_score := hd.1 }, ?_⟩
      unfold f
      rw [hini]
      dsimp only
      rw [show fLoop oracle rands 0 generations (pop0, 5, []) =
          .ok (st'.1, st'.2.1, st'.2.2) from by rw [hloop]]
      dsimp only
      rw [hfin]
      dsimp only
      rw [hsort]

/-- C7, counterexample.  The claim promises that a malformed (e.g.
empty) seed and a zero generation budget are surfaced as an explicit
error; instead `f` accepts both and silently returns a degenerate normal
result — the empty candidate itself with score 0. -/
theorem f_empty_seed_zero_generations_ok :
    f (fun _ => "") trivRands [] 0 =
      .ok { input := [], output := [], generations := 0, history := [],
            final_score := 0 } := by
  decide

/-- Witness for C7 at a concrete well-formed seed, non-zero budget and an
oracle that always reports a failure marker. -/
theorem f_returns_ok_for_good_seed_witness :
    ∃ r, f (fun _ => "[timeout 60s]") trivRands
        [("ollama", Val.vbool true)] 2 = .ok r :=
  f_returns_ok_for_good_seed (fun _ => "[timeout 60s]") trivRands
    [("ollama", Val.vbool true)] 2 (by decide)

end Ear
